import Mathlib

/-
Verification of the diff-aware review placement and branch-synchronization
engine of the coding-test-review-bot repository.

The TypeScript sources are shallowly embedded as executable Lean
definitions.  JavaScript numbers that are only ever used as (possibly
negative) line counters are modelled as `Int`; strings are Lean `String`s;
fallible operations return `Option`; the GitHub REST surface is modelled as
explicit request-scoped state (lists of comments / reviews, plus an effect
trace for git object operations).  The JavaScript string primitives used by
the source (`split`, `startsWith`, `endsWith`, `trim`, `includes`,
`replace`, template interpolation) are modelled as structurally recursive
functions over the underlying character lists so that every definition can
be evaluated by kernel reduction on concrete inputs.
-/

namespace ReviewBot

/-- Model of JavaScript `String.prototype.split` with a single-character
separator: splits into the (always non-empty) list of chunks between
occurrences of the separator. -/
def splitOnCharAux (sep : Char) : List Char → List Char → List String
  | [], acc => [⟨acc.reverse⟩]
  | c :: rest, acc =>
    if c = sep then ⟨acc.reverse⟩ :: splitOnCharAux sep rest []
    else splitOnCharAux sep rest (c :: acc)

/-- JavaScript `s.split(sep)` for a one-character separator. -/
def jsSplitChar (sep : Char) (s : String) : List String :=
  splitOnCharAux sep s.data []

/-- JavaScript `s.startsWith(p)`. -/
def jsStartsWith (s p : String) : Bool :=
  p.data.isPrefixOf s.data

/-- JavaScript `s.endsWith(p)`. -/
def jsEndsWith (s p : String) : Bool :=
  p.data.reverse.isPrefixOf s.data.reverse

/-- JavaScript `s.includes(p)`: `p` occurs as a contiguous substring. -/
def jsIncludes (s p : String) : Bool :=
  s.data.tails.any (fun t => p.data.isPrefixOf t)

/-- JavaScript `s.trim()`: strip leading and trailing whitespace. -/
def jsTrim (s : String) : String :=
  ⟨((s.data.dropWhile Char.isWhitespace).reverse.dropWhile Char.isWhitespace).reverse⟩

/-- Value of the longest digit prefix of a character list (used to model the
capture group of the hunk-header regex). -/
def takeDigitsVal (acc : Nat) : List Char → Nat
  | [] => acc
  | c :: rest => if c.isDigit then takeDigitsVal (acc * 10 + (c.toNat - 48)) rest else acc

/-- Model of the JavaScript regex `\+(\d+)` applied by the diff parsers to a
hunk header line: find the first `+` that is immediately followed by a digit
and return the value of the digit run after it. -/
def findPlusNum : List Char → Option Nat
  | [] => none
  | c :: rest =>
    if c = '+' then
      match rest with
      | [] => none
      | d :: _ => if d.isDigit then some (takeDigitsVal 0 rest) else findPlusNum rest
    else findPlusNum rest

/-- Loop body of `parseAddedLinesFromPatch` (src/github.ts lines 110-141).
State: current new-side line counter and whether we are inside a hunk.
Note the final catch-all branch: any in-hunk line that is neither a
`+`-line (other than `+++`) nor a `-`-line (other than `---`) advances the
counter, exactly as the source's trailing `newLine += 1` does. -/
def parseAddedAux : List String → Int → Bool → List Int
  | [], _, _ => []
  | line :: rest, newLine, inHunk =>
    if jsStartsWith line "@@" then
      match findPlusNum line.data with
      | none => parseAddedAux rest newLine false
      | some c => parseAddedAux rest ((c : Int) - 1) true
    else if !inHunk then
      parseAddedAux rest newLine inHunk
    else if jsStartsWith line "+" && !jsStartsWith line "+++" then
      (newLine + 1) :: parseAddedAux rest (newLine + 1) true
    else if jsStartsWith line "-" && !jsStartsWith line "---" then
      parseAddedAux rest newLine true
    else
      parseAddedAux rest (newLine + 1) true

/-- Embedding of `parseAddedLinesFromPatch`: new-side line numbers of all
`+` lines of the patch, in scan order. -/
def parseAddedLinesFromPatch (patch : String) : List Int :=
  parseAddedAux (jsSplitChar '\n' patch) 0 false

/-- Loop body of `parseRightSideLinesFromPatch` (src/github.ts lines
143-177).  Unlike the added-lines parser, only `+` lines and context lines
(leading space) advance the new-side counter; any other in-hunk line leaves
it unchanged. -/
def parseRightAux : List String → Int → Bool → List Int
  | [], _, _ => []
  | line :: rest, newLine, inHunk =>
    if jsStartsWith line "@@" then
      match findPlusNum line.data with
      | none => parseRightAux rest newLine false
      | some c => parseRightAux rest ((c : Int) - 1) true
    else if !inHunk then
      parseRightAux rest newLine inHunk
    else if jsStartsWith line "+" && !jsStartsWith line "+++" then
      (newLine + 1) :: parseRightAux rest (newLine + 1) true
    else if jsStartsWith line "-" && !jsStartsWith line "---" then
      parseRightAux rest newLine true
    else if jsStartsWith line " " then
      (newLine + 1) :: parseRightAux rest (newLine + 1) true
    else
      parseRightAux rest newLine true

/-- Embedding of `parseRightSideLinesFromPatch`: the source collects the
right-side line numbers in a `Set` and returns them sorted ascending; we
collect the insertion list, deduplicate, and sort. -/
def parseRightSideLinesFromPatch (patch : String) : List Int :=
  ((parseRightAux (jsSplitChar '\n' patch) 0 false).dedup).insertionSort (· ≤ ·)

/-- Embedding of `ChangedFileForReview` (src/github.ts lines 43-48). -/
structure ChangedFileForReview where
  path : String
  patch : String
  addedLines : List Int
  content : String
deriving DecidableEq

/-- Embedding of `InlineReviewComment` (src/github.ts lines 50-54); the AI
provider's `InlineSuggestion` has the same shape. -/
structure InlineReviewComment where
  path : String
  line : Int
  body : String
deriving DecidableEq

/-- Embedding of `FileLineIndex` (src/github.ts lines 62-67). -/
structure FileLineIndex where
  path : String
  normalizedPath : String
  basename : String
  rightLines : List Int
deriving DecidableEq

/-- Embedding of `normalizePathForMatch` (src/github.ts lines 179-184):
trim, backslash to slash, strip one leading `./`, strip all leading
slashes. -/
def normalizePathForMatch (path : String) : String :=
  let normalized : String := ⟨(jsTrim path).data.map (fun c => if c = '\\' then '/' else c)⟩
  let normalized : String :=
    if jsStartsWith normalized "./" then ⟨normalized.data.drop 2⟩ else normalized
  ⟨normalized.data.dropWhile (fun c => c = '/')⟩

/-- Model of the JavaScript idiom `s.split("/").pop() || s` used for the
final path segment: the last chunk when it is non-empty, otherwise the whole
string. -/
def jsBasename (s : String) : String :=
  match (jsSplitChar '/' s).getLast? with
  | some last => if last = "" then s else last
  | none => s

/-- Embedding of `buildFileLineIndexes` (src/github.ts lines 186-198). -/
def buildFileLineIndexes (changedFiles : List ChangedFileForReview) : List FileLineIndex :=
  changedFiles.map (fun file =>
    let normalizedPath := normalizePathForMatch file.path
    { path := file.path
      normalizedPath := normalizedPath
      basename := jsBasename normalizedPath
      rightLines := parseRightSideLinesFromPatch file.patch })

/-- Embedding of `resolvePathForInlineComment` (src/github.ts lines
200-219).  Empty-after-normalization paths fail immediately; then exact
normalized match, unique suffix match, unique basename match, single
changed file, in that order. -/
def resolvePathForInlineComment (requestedPath : String) (indexes : List FileLineIndex) :
    Option String :=
  let requested := normalizePathForMatch requestedPath
  if requested = "" then none
  else
    match indexes.find? (fun item => item.normalizedPath == requested) with
    | some exact => some exact.path
    | none =>
      match indexes.filter (fun item =>
          jsEndsWith item.normalizedPath ("/" ++ requested) ||
          jsEndsWith requested ("/" ++ item.normalizedPath)) with
      | [one] => some one.path
      | _ =>
        match indexes.filter (fun item => item.basename == jsBasename requested) with
        | [one] => some one.path
        | _ =>
          match indexes with
          | [one] => some one.path
          | _ => none

/-- Resolution cascade exactly as the specification words it (section 4.2,
five rules, first match wins), WITHOUT the source's guard that rejects a
suggestion path that normalizes to the empty string.  Used to compare the
source's `resolvePathForInlineComment` against the spec's description. -/
def specResolvePath (requestedPath : String) (indexes : List FileLineIndex) :
    Option String :=
  let requested := normalizePathForMatch requestedPath
  match indexes.find? (fun item => item.normalizedPath == requested) with
  | some exact => some exact.path
  | none =>
    match indexes.filter (fun item =>
        jsEndsWith item.normalizedPath ("/" ++ requested) ||
        jsEndsWith requested ("/" ++ item.normalizedPath)) with
    | [one] => some one.path
    | _ =>
      match indexes.filter (fun item => item.basename == jsBasename requested) with
      | [one] => some one.path
      | _ =>
        match indexes with
        | [one] => some one.path
        | _ => none

/-- Distance used by the closest-line search: `Math.abs(line - targetLine)`. -/
def distTo (targetLine line : Int) : Nat :=
  (line - targetLine).natAbs

/-- Loop body of the closest-line search of `findClosestReviewLine`: keep
the current best unless the new line is strictly closer. -/
def closestStep (targetLine : Int) (best : Int × Nat) (line : Int) : Int × Nat :=
  if distTo targetLine line < best.2 then (line, distTo targetLine line) else best

/-- Embedding of `findClosestReviewLine` (src/github.ts lines 221-239).
Line numbers are modelled as `Int`, so the source's `Number.isInteger`
check is always true and only the `targetLine <= 0` rejection remains. -/
def findClosestReviewLine (targetLine : Int) (rightLines : List Int) : Option Int :=
  if targetLine ≤ 0 then none
  else
    match rightLines with
    | [] => none
    | first :: _ =>
      if targetLine ∈ rightLines then some targetLine
      else
        let best := rightLines.foldl (closestStep targetLine) (first, distTo targetLine first)
        if best.2 > 20 then none else some best.1

/-- Marker embedded as the first line of the bot's inline review body
(src/github.ts line 34). -/
def LINE_REVIEW_MARKER : String := "<!-- ct-assistant:inline-review -->"

/-- Model of one issue comment as returned by the GitHub list-comments API:
its id, its body, and whether its author is of type `Bot`. -/
structure IssueComment where
  id : Nat
  body : String
  isBot : Bool
deriving DecidableEq

/-- Predicate used by `upsertIssueComment` and `removeTemplateCheckComment`
to recognize the bot's own comment: body contains the marker and the author
is a bot. -/
def isMarkedBotComment (marker : String) (c : IssueComment) : Bool :=
  jsIncludes c.body marker && c.isBot

/-- Effect of `issues.updateComment` on the listed comments: the comment
with the given id gets the new body; id and author are untouched. -/
def updateCommentBody (commentId : Nat) (newBody : String) (c : IssueComment) : IssueComment :=
  if c.id = commentId then { c with body := newBody } else c

/-- Embedding of `upsertIssueComment` (src/github.ts lines 72-108) as a
transformation of the issue's comment list (GitHub returns comments in
creation order; a created comment is appended at the end).  The first
bot-authored comment containing the marker is updated in place when found,
and a fresh bot comment is appended otherwise.  `freshId` is the id the
API would assign to a newly created comment.  The comment written is
always `marker ++ "\n" ++ bodyWithoutMarker`, and a comment created by the
bot's own token is bot-authored. -/
def upsertIssueComment (comments : List IssueComment) (marker bodyWithoutMarker : String)
    (freshId : Nat) : List IssueComment :=
  let finalBody := marker ++ "\n" ++ bodyWithoutMarker
  match comments.find? (isMarkedBotComment marker) with
  | some existing => comments.map (updateCommentBody existing.id finalBody)
  | none => comments ++ [{ id := freshId, body := finalBody, isBot := true }]

/-- Model of one pull-request review as returned by the list-reviews API:
author kind, the commit id it was posted against, and its body. -/
structure PullReview where
  isBot : Bool
  commitId : String
  body : String
deriving DecidableEq

/-- Model of a JavaScript `Map.set`: replace the value in place when the key
is present (keeping its original insertion position), append otherwise. -/
def jsMapSet (m : List (String × InlineReviewComment)) (k : String)
    (v : InlineReviewComment) : List (String × InlineReviewComment) :=
  match m with
  | [] => [(k, v)]
  | (k', v') :: rest =>
    if k' = k then (k, v) :: rest else (k', v') :: jsMapSet rest k v

/-- Lookup in the insertion-ordered association-list model of a JavaScript
`Map`. -/
def jsMapGet (m : List (String × InlineReviewComment)) (k : String) :
    Option InlineReviewComment :=
  (m.find? (fun e => e.1 == k)).map (fun e => e.2)

/-- Model of `new Map(indexes.map(item => [item.path, item.rightLines]))`
followed by `.get(path) || []`: for duplicate keys the last entry wins, a
missing key yields the empty list (the only falsy case of `|| []`). -/
def rightLinesFor (indexes : List FileLineIndex) (path : String) : List Int :=
  indexes.foldl (fun acc item => if item.path == path then some item.rightLines else acc)
    (none : Option (List Int)) |>.getD []

/-- The key `` `${resolvedPath}:${resolvedLine}` `` used for deduplication in
`createInlineReview`. -/
def commentKey (path : String) (line : Int) : String :=
  path ++ ":" ++ toString line

/-- One iteration of the resolution loop of `createInlineReview`
(src/github.ts lines 554-571): trim the body and drop it when empty,
resolve the path, find the closest right-side line, and drop the suggestion
when the resolved line is falsy in JavaScript (null or the number 0). -/
def resolveOne (indexes : List FileLineIndex) (item : InlineReviewComment) :
    Option InlineReviewComment :=
  let body := jsTrim item.body
  if body = "" then none
  else
    match resolvePathForInlineComment item.path indexes with
    | none => none
    | some resolvedPath =>
      match findClosestReviewLine item.line (rightLinesFor indexes resolvedPath) with
      | none => none
      | some resolvedLine =>
        if resolvedLine = 0 then none
        else some { path := resolvedPath, line := resolvedLine, body := body }

/-- The `resolved` map of `createInlineReview` after processing the input
comments in order, starting from an arbitrary map `m`. -/
def buildResolvedFrom (indexes : List FileLineIndex)
    (m : List (String × InlineReviewComment)) (comments : List InlineReviewComment) :
    List (String × InlineReviewComment) :=
  comments.foldl (fun acc item =>
    match resolveOne indexes item with
    | none => acc
    | some rc => jsMapSet acc (commentKey rc.path rc.line) rc) m

/-- The `validComments` of `createInlineReview` (src/github.ts line 573):
values of the resolved map in insertion order, capped at 8. -/
def validCommentsOf (changedFiles : List ChangedFileForReview)
    (comments : List InlineReviewComment) : List InlineReviewComment :=
  let indexes := buildFileLineIndexes changedFiles
  ((buildResolvedFrom indexes [] comments).map (fun e => e.2)).take 8

/-- The value the resolved map ends up holding for key `k`: the resolution
of the last comment in input order that successfully resolves to `k`,
starting from `acc` (used with `acc = none`). -/
def lastResolutionFrom (indexes : List FileLineIndex) (acc : Option InlineReviewComment)
    (comments : List InlineReviewComment) (k : String) : Option InlineReviewComment :=
  comments.foldl (fun acc item =>
    match resolveOne indexes item with
    | none => acc
    | some rc => if commentKey rc.path rc.line = k then some rc else acc) acc

/-- Embedding of the result record of `createInlineReview`. -/
structure InlineReviewResult where
  posted : Bool
  reason : String
  validComments : List InlineReviewComment
deriving DecidableEq

/-- Predicate of the `alreadyPosted` check of `createInlineReview`
(src/github.ts lines 585-590): a bot-authored review at this head sha whose
body contains the inline-review marker. -/
def isInlineReviewAt (headSha : String) (r : PullReview) : Bool :=
  r.isBot && r.commitId == headSha && jsIncludes r.body LINE_REVIEW_MARKER

/-- Embedding of `createInlineReview` (src/github.ts lines 534-619) as a
transformation of the pull request's review list.  `headSha` is the head
sha returned by `pulls.get`; a review created through `pulls.createReview`
is appended to the list, bot-authored, with `commit_id = headSha` and the
marker as the first line of its body. -/
def createInlineReview (reviews : List PullReview) (headSha summaryBody : String)
    (comments : List InlineReviewComment) (changedFiles : List ChangedFileForReview) :
    InlineReviewResult × List PullReview :=
  let validComments := validCommentsOf changedFiles comments
  if validComments = [] then
    ({ posted := false, reason := "no_valid_comments", validComments := [] }, reviews)
  else
    if reviews.any (isInlineReviewAt headSha) then
      ({ posted := false, reason := "already_posted", validComments := validComments }, reviews)
    else
      ({ posted := true, reason := "posted", validComments := validComments },
        reviews ++ [{ isBot := true, commitId := headSha,
                      body := LINE_REVIEW_MARKER ++ "\n" ++ summaryBody }])

/-- The review object appended by `createInlineReview` when it posts: a
bot-authored review at the current head sha whose body starts with the
inline-review marker. -/
def postedInlineReview (headSha summaryBody : String) : PullReview :=
  { isBot := true, commitId := headSha, body := LINE_REVIEW_MARKER ++ "\n" ++ summaryBody }

/-- One entry of the commit plan handed to `commitFilesToPrBranch`. -/
structure PlannedFile where
  path : String
  content : String
deriving DecidableEq

/-- Octokit operations performed by `commitFilesToPrBranch`, in call order.
Tree entries record the exact path/content pairs passed to
`git.createTree` (every entry also carries the constants
`mode = "100644"` and `type = "blob"`, omitted here). -/
inductive GitEffect where
  | readContent (path : String)
  | getRef
  | getCommit (sha : String)
  | createTree (baseTree : String) (entries : List PlannedFile)
  | createCommit (message : String) (tree : String) (parents : List String)
  | updateRef (sha : String) (force : Bool)
deriving DecidableEq

/-- Read-only view of the repository used by `commitFilesToPrBranch`:
`contentAt` is `getTextFileContent` at the branch tip (`none` models the
null returned for missing/non-text files), `refSha` the branch tip commit,
`treeShaOf` the tree sha of a commit, and `newTreeSha`/`newCommitSha` the
shas the create-tree/create-commit calls would return. -/
structure RepoView where
  contentAt : String → Option String
  refSha : String
  treeShaOf : String → String
  newTreeSha : String
  newCommitSha : String

/-- Embedding of `commitFilesToPrBranch` (src/github.ts lines 473-532) as a
pure function returning its boolean result together with the ordered trace
of octokit operations it performs.  The unchanged check compares, for every
planned file, the current branch-tip content with the planned content
(`null === content` is false); when all match the function returns `false`
having performed only the content reads.  Otherwise it resolves the ref and
base commit, creates a tree overlaying the planned files verbatim on the
base tree, creates a commit with the tip as sole parent, and updates the
ref without force. -/
def commitFilesToPrBranch (repo : RepoView) (message : String)
    (files : List PlannedFile) : Bool × List GitEffect :=
  let reads := files.map (fun f => GitEffect.readContent f.path)
  if files.all (fun f => repo.contentAt f.path == some f.content) then
    (false, reads)
  else
    let baseCommitSha := repo.refSha
    (true, reads ++
      [GitEffect.getRef,
       GitEffect.getCommit baseCommitSha,
       GitEffect.createTree (repo.treeShaOf baseCommitSha) files,
       GitEffect.createCommit message repo.newTreeSha [baseCommitSha],
       GitEffect.updateRef repo.newCommitSha false])

/-- Outcome of one raw Gemini HTTP request
(src/ai/providers/gemini-provider.ts lines 31-34). -/
inductive ReqKind where
  | ok (raw : String)
  | rateLimited
  | failed
deriving DecidableEq

/-- One request issued to the Gemini API: which model and which prompt. -/
structure CallRecord where
  model : String
  prompt : String
deriving DecidableEq

/-- Scripted environment for the provider: the raw outcomes the network
would return, in call order, plus the log of requests made so far.  An
exhausted script answers `failed` (a transport failure). -/
structure GenState where
  script : List ReqKind
  calls : List CallRecord
deriving DecidableEq

/-- Embedding of `GeminiProvider.request`: consume the next scripted
outcome and log the call. -/
def requestRaw (st : GenState) (model prompt : String) : ReqKind × GenState :=
  match st.script with
  | [] => (ReqKind.failed, { st with calls := st.calls ++ [{ model := model, prompt := prompt }] })
  | r :: rest => (r, { script := rest, calls := st.calls ++ [{ model := model, prompt := prompt }] })

/-- Embedding of `GeminiProvider.requestWithRateLimitRetry`
(src/ai/providers/gemini-provider.ts lines 508-527): on a rate-limited
outcome, back off and retry until `rateLimitRetries` retries are spent;
any other outcome is returned at once.  `retriesLeft` starts at the
provider's `rateLimitRetries`. -/
def requestWithRateLimitRetry (model prompt : String) :
    Nat → GenState → ReqKind × GenState
  | retriesLeft, st =>
    let step := requestRaw st model prompt
    if step.1 = ReqKind.rateLimited then
      match retriesLeft with
      | 0 => step
      | n + 1 => requestWithRateLimitRetry model prompt n step.2
    else step

/-- Shape of a schema-valid Gemini response
(src/ai/providers/gemini-provider.ts lines 9-19). -/
structure GeminiResponseShape where
  summary_markdown : String
  time_complexity : String
  space_complexity : String
  answer_code : String
  inline_suggestions : List InlineReviewComment
deriving DecidableEq

/-- Embedding of `normalizeInline`: drop suggestions whose trimmed path or
body is empty or whose line is not a positive integer (lines are already
integers in this model). -/
def normalizeInline (items : List InlineReviewComment) : List InlineReviewComment :=
  items.filterMap (fun item =>
    let path := jsTrim item.path
    let body := jsTrim item.body
    if path = "" || body = "" || item.line ≤ 0 then none
    else some { path := path, line := item.line, body := body })

/-- Embedding of `isUnavailableAnswerCode`: empty after trimming, or one of
the unavailable sentinels (comparison is on the lower-cased text). -/
def isUnavailableAnswerCode (answerCode : String) : Bool :=
  let normalized : String := ⟨(jsTrim answerCode).data.map Char.toLower⟩
  if normalized = "" then true
  else
    jsIncludes normalized "answer_code unavailable" ||
    normalized == "n/a" || normalized == "na" || normalized == "none"

/-- Embedding of the provider result record (`AiReviewResult` as built by
`GeminiProvider.finalizeResult`). -/
structure AiReviewResult where
  summaryMarkdown : String
  timeComplexity : String
  spaceComplexity : String
  answerCode : String
  inlineSuggestions : List InlineReviewComment
deriving DecidableEq

/-- Configuration of the provider model.  The JSON parsing functions
(`parseResponse`, `parseAnswerCodeOnly`) and the literal prompt templates
(`buildJsonRepairPrompt`, `buildAnswerCodeOnlyPrompt` applied to the job
input) do not affect the control flow under verification, so they are
carried as parameters: every theorem below holds for all of them. -/
structure ProviderConfig where
  model : String
  fallbackModel : String
  rateLimitRetries : Nat
  maxRetries : Nat
  parseResponse : String → Option GeminiResponseShape
  parseAnswerCodeOnly : String → Option String
  repairPromptOf : String → String
  answerCodePrompt : String

/-- Embedding of `GeminiProvider.recoverAnswerCode` followed by the splice
in `finalizeResult`: one rate-limit-retrying request for the answer code
only, parsed by the answer-code parser. -/
def recoverAnswerCode (cfg : ProviderConfig) (model : String) (st : GenState) :
    Option String × GenState :=
  let step := requestWithRateLimitRetry model cfg.answerCodePrompt cfg.rateLimitRetries st
  match step.1 with
  | ReqKind.ok raw => (cfg.parseAnswerCodeOnly raw, step.2)
  | _ => (none, step.2)

/-- Embedding of `GeminiProvider.finalizeResult`
(src/ai/providers/gemini-provider.ts lines 486-506): when the parsed
answer code is an unavailable sentinel, issue one narrowly-scoped recovery
request and splice the recovered code in when it parses. -/
def finalizeResult (cfg : ProviderConfig) (model : String)
    (parsed : GeminiResponseShape) (st : GenState) : AiReviewResult × GenState :=
  let answerCode := jsTrim parsed.answer_code
  let next :=
    if isUnavailableAnswerCode answerCode then
      let rec' := recoverAnswerCode cfg model st
      match rec'.1 with
      | some recovered => (jsTrim recovered, rec'.2)
      | none => (answerCode, rec'.2)
    else (answerCode, st)
  ({ summaryMarkdown := jsTrim parsed.summary_markdown
     timeComplexity := jsTrim parsed.time_complexity
     spaceComplexity := jsTrim parsed.space_complexity
     answerCode := next.1
     inlineSuggestions := normalizeInline parsed.inline_suggestions }, next.2)

/-- Embedding of `GeminiProvider.repairMalformedJson`: one
rate-limit-retrying repair request whose reply goes through the normal
response parser. -/
def repairMalformedJson (cfg : ProviderConfig) (model raw : String) (st : GenState) :
    Option GeminiResponseShape × GenState :=
  let step := requestWithRateLimitRetry model (cfg.repairPromptOf raw) cfg.rateLimitRetries st
  match step.1 with
  | ReqKind.ok rawReply => (cfg.parseResponse rawReply, step.2)
  | _ => (none, step.2)

/-- Outcome of the primary-model prompt loop of
`GeminiProvider.generateReview`: either an early successful result, or
exhaustion carrying the `primaryHadTransportFailure` and
`primaryRateLimited` flags. -/
inductive PhaseOutcome where
  | success (result : AiReviewResult)
  | exhausted (hadTransportFailure : Bool) (rateLimited : Bool)
deriving DecidableEq

/-- Embedding of the primary-model loop of `GeminiProvider.generateReview`
(src/ai/providers/gemini-provider.ts lines 554-580): per prompt variant,
one rate-limit-retrying request; a rate-limited outcome breaks out of the
loop at once; a transport failure records the flag and tries the next
variant; a successful reply is parsed, repaired once on parse failure, and
finalized on success. -/
def primaryLoop (cfg : ProviderConfig) : List String → Bool → GenState →
    PhaseOutcome × GenState
  | [], hadFail, st => (PhaseOutcome.exhausted hadFail false, st)
  | prompt :: rest, hadFail, st =>
    let step := requestWithRateLimitRetry cfg.model prompt cfg.rateLimitRetries st
    match step.1 with
    | ReqKind.rateLimited => (PhaseOutcome.exhausted hadFail true, step.2)
    | ReqKind.failed => primaryLoop cfg rest true step.2
    | ReqKind.ok raw =>
      match cfg.parseResponse raw with
      | some parsed =>
        let fin := finalizeResult cfg cfg.model parsed step.2
        (PhaseOutcome.success fin.1, fin.2)
      | none =>
        let rep := repairMalformedJson cfg cfg.model raw step.2
        match rep.1 with
        | some parsed =>
          let fin := finalizeResult cfg cfg.model parsed rep.2
          (PhaseOutcome.success fin.1, fin.2)
        | none => primaryLoop cfg rest hadFail rep.2

/-- Embedding of the fallback-model loop of `GeminiProvider.generateReview`
(src/ai/providers/gemini-provider.ts lines 585-616): same per-prompt logic
against the fallback model, but bounded by `maxRetries` attempts; a
rate-limited outcome breaks out, and every exit path of the loop yields no
result at the caller. -/
def fallbackLoop (cfg : ProviderConfig) : List String → Nat → GenState →
    Option AiReviewResult × GenState
  | [], _, st => (none, st)
  | _, 0, st => (none, st)
  | prompt :: rest, attemptsLeft + 1, st =>
    let step := requestWithRateLimitRetry cfg.fallbackModel prompt cfg.rateLimitRetries st
    match step.1 with
    | ReqKind.rateLimited => (none, step.2)
    | ReqKind.failed => fallbackLoop cfg rest attemptsLeft step.2
    | ReqKind.ok raw =>
      match cfg.parseResponse raw with
      | some parsed =>
        let fin := finalizeResult cfg cfg.fallbackModel parsed step.2
        (some fin.1, fin.2)
      | none =>
        let rep := repairMalformedJson cfg cfg.fallbackModel raw step.2
        match rep.1 with
        | some parsed =>
          let fin := finalizeResult cfg cfg.fallbackModel parsed rep.2
          (some fin.1, fin.2)
        | none => fallbackLoop cfg rest attemptsLeft rep.2

/-- Embedding of `GeminiProvider.generateReview`
(src/ai/providers/gemini-provider.ts lines 538-620).  `fullPrompt` and
`compactPrompt` are the two already-length-limited prompt variants; the
compact one is tried only when it differs textually from the full one.
After the primary loop: a rate-limited primary phase returns no result at
once; the fallback model runs only when it is configured, distinct from
the primary model, and the primary phase had a transport failure. -/
def generateReview (cfg : ProviderConfig) (fullPrompt compactPrompt : String)
    (st : GenState) : Option AiReviewResult × GenState :=
  let prompts := if compactPrompt = fullPrompt then [fullPrompt] else [fullPrompt, compactPrompt]
  let phase := primaryLoop cfg prompts false st
  match phase.1 with
  | PhaseOutcome.success res => (some res, phase.2)
  | PhaseOutcome.exhausted hadFail rateLimited =>
    if rateLimited then (none, phase.2)
    else if !(cfg.fallbackModel != "" && cfg.fallbackModel != cfg.model) || !hadFail then
      (none, phase.2)
    else fallbackLoop cfg prompts cfg.maxRetries phase.2

/-- Kernel-level fact relating string append to list append on the
underlying characters. -/
theorem str_data_append (a b : String) : (a ++ b).data = a.data ++ b.data := by
  cases a
  cases b
  rfl

/-- Every character list is its own first tail. -/
theorem self_mem_tails (l : List Char) : l ∈ l.tails := by
  cases l <;> simp

/-- A character list is a Boolean prefix of itself extended on the right. -/
theorem isPrefixOf_append_self : ∀ (l t : List Char), l.isPrefixOf (l ++ t) = true := by
  intro l
  induction l with
  | nil => intro t; simp [List.isPrefixOf]
  | cons a as ih => intro t; simp [List.isPrefixOf, ih]

/-- A body of the form `marker ++ sep ++ rest` always contains the marker
in the JavaScript `includes` sense. -/
theorem jsIncludes_marker_body (marker sep rest : String) :
    jsIncludes (marker ++ sep ++ rest) marker = true := by
  unfold jsIncludes
  rw [List.any_eq_true]
  refine ⟨(marker ++ sep ++ rest).data, self_mem_tails _, ?_⟩
  rw [str_data_append, str_data_append, List.append_assoc]
  exact isPrefixOf_append_self _ _

/-- C1: the claim `addedLines ⊆ rightLines` fails on the code for a valid
unified diff whose hunk carries a mid-hunk `\ No newline at end of file`
marker: the added-lines parser advances its counter on the marker line
while the right-side parser does not, so the recorded added line `2` is not
among the right-side lines `[1]`.  This theorem evaluates both parsers of
the source at that failing patch. -/
theorem c1_added_not_subset_right_at_failing_input :
    parseAddedLinesFromPatch "@@ -1 +1 @@\n-a\n\\ No newline at end of file\n+a" = [2] ∧
    parseRightSideLinesFromPatch "@@ -1 +1 @@\n-a\n\\ No newline at end of file\n+a" = [1] ∧
    ¬ (∀ x ∈ parseAddedLinesFromPatch "@@ -1 +1 @@\n-a\n\\ No newline at end of file\n+a",
        x ∈ parseRightSideLinesFromPatch "@@ -1 +1 @@\n-a\n\\ No newline at end of file\n+a") := by
  decide

/-- C10: applying an empty commit plan returns `false` and performs no git
operation at all — no content read, no ref read, and no tree, commit or
ref write: the all-contents-unchanged check is vacuously true over the
empty plan. -/
theorem c10_empty_plan_is_noop (repo : RepoView) (message : String) :
    commitFilesToPrBranch repo message [] = (false, []) := rfl

/-- C4: when every planned file's content equals the current branch-tip
content, `commitFilesToPrBranch` returns `false` and its effect trace
consists of the per-file content reads only — no ref read and no tree,
commit or ref write.  Re-running with the identical plan against the
unchanged tip is the same pure call, hence again performs zero writes. -/
theorem c4_unchanged_plan_is_noop (repo : RepoView) (message : String)
    (files : List PlannedFile)
    (h : ∀ f ∈ files, repo.contentAt f.path = some f.content) :
    commitFilesToPrBranch repo message files =
      (false, files.map (fun f => GitEffect.readContent f.path)) := by
  unfold commitFilesToPrBranch
  have hall : files.all (fun f => repo.contentAt f.path == some f.content) = true := by
    rw [List.all_eq_true]
    intro f hf
    exact beq_iff_eq.mpr (h f hf)
  rw [hall]
  simp

/-- Closed instance of the C4 theorem at a concrete repository view and a
one-file plan whose content already matches the tip. -/
theorem c4_witness :
    commitFilesToPrBranch
      { contentAt := fun p => if p = "a" then some "x" else none,
        refSha := "r", treeShaOf := fun _ => "t", newTreeSha := "nt", newCommitSha := "nc" }
      "m" [{ path := "a", content := "x" }] = (false, [GitEffect.readContent "a"]) := by
  exact c4_unchanged_plan_is_noop _ _ _ (by intro f hf; rw [List.mem_singleton] at hf; subst hf; rfl)

/-- C8 (amended): `commitFilesToPrBranch` performs no content
normalization: whenever its effect trace contains a create-tree call, the
blob entries of that call are exactly the planned files, contents
verbatim. -/
theorem c8_tree_entries_verbatim (repo : RepoView) (message : String)
    (files : List PlannedFile) (baseTree : String) (entries : List PlannedFile)
    (h : GitEffect.createTree baseTree entries ∈ (commitFilesToPrBranch repo message files).2) :
    entries = files := by
  unfold commitFilesToPrBranch at h
  split at h
  · simp at h
  · simp at h
    exact h.2

/-- Closed instance of the C8 theorem: a create-tree effect observed in a
concrete run carries exactly the planned entries. -/
theorem c8_witness :
    GitEffect.createTree "t"
        [{ path := "f", content := "x" }] ∈
      (commitFilesToPrBranch
        { contentAt := fun _ => none, refSha := "r", treeShaOf := fun _ => "t",
          newTreeSha := "nt", newCommitSha := "nc" } "m"
        [{ path := "f", content := "x" }]).2 ∧
    [({ path := "f", content := "x" } : PlannedFile)] =
      [{ path := "f", content := "x" }] :=
  ⟨by decide,
   c8_tree_entries_verbatim
     { contentAt := fun _ => none, refSha := "r", treeShaOf := fun _ => "t",
       newTreeSha := "nt", newCommitSha := "nc" } "m"
     [{ path := "f", content := "x" }] "t" [{ path := "f", content := "x" }] (by decide)⟩

/-- C8 counterexample: the claim that every committed content is terminated
with exactly one trailing newline is false — a planned content without a
trailing newline is written into the created tree verbatim.  The effect
trace of a concrete run shows the blob entry content `"x"`, which does not
end with a newline. -/
theorem c8_counterexample :
    (commitFilesToPrBranch
        { contentAt := fun _ => none, refSha := "base", treeShaOf := fun _ => "tree",
          newTreeSha := "ntree", newCommitSha := "ncommit" } "m"
        [{ path := "f", content := "x" }]).2 =
      [GitEffect.readContent "f", GitEffect.getRef, GitEffect.getCommit "base",
       GitEffect.createTree "tree" [{ path := "f", content := "x" }],
       GitEffect.createCommit "m" "ntree" ["base"],
       GitEffect.updateRef "ncommit" false] ∧
    jsEndsWith "x" "\n" = false := by
  constructor
  · rfl
  · rfl

/-- C6 (amended): path resolution follows the specification's five-rule
cascade (exact normalized match, unique suffix match, unique basename
match, single-changed-file fallback, else fail) for every suggestion path
that does not normalize to the empty string — an empty-after-normalization
path (for example `/` or `./`) fails immediately without reaching the
single-changed-file fallback.  In the specification scenario (changed
files `src/Main.java` and `test/MainTest.java`, suggestion path
`Main.java`), the exact-match rule finds nothing and the UNIQUE
PATH-SUFFIX rule already fires: `src/Main.java` is the only changed file
whose normalized path ends in `/Main.java`, so the suggestion resolves to
`src/Main.java` at rule 2 and the unique-basename rule is never consulted.
The last three conjuncts pin that mechanism: no exact match, the suffix
filter is the singleton `src/Main.java`, and resolution returns it. -/
theorem c6_path_resolution_rules :
    (∀ (requestedPath : String) (indexes : List FileLineIndex),
        normalizePathForMatch requestedPath ≠ "" →
        resolvePathForInlineComment requestedPath indexes =
          specResolvePath requestedPath indexes) ∧
    (buildFileLineIndexes
        [{ path := "src/Main.java", patch := "", addedLines := [], content := "" },
         { path := "test/MainTest.java", patch := "", addedLines := [], content := "" }]).find?
      (fun item => item.normalizedPath == normalizePathForMatch "Main.java") = none ∧
    ((buildFileLineIndexes
        [{ path := "src/Main.java", patch := "", addedLines := [], content := "" },
         { path := "test/MainTest.java", patch := "", addedLines := [], content := "" }]).filter
      (fun item =>
        jsEndsWith item.normalizedPath ("/" ++ normalizePathForMatch "Main.java") ||
        jsEndsWith (normalizePathForMatch "Main.java") ("/" ++ item.normalizedPath))).map
      (fun item => item.path) = ["src/Main.java"] ∧
    resolvePathForInlineComment "Main.java"
      (buildFileLineIndexes
        [{ path := "src/Main.java", patch := "", addedLines := [], content := "" },
         { path := "test/MainTest.java", patch := "", addedLines := [], content := "" }]) =
      some "src/Main.java" := by
  refine ⟨?_, by decide, by decide, by decide⟩
  intro p idx h
  unfold resolvePathForInlineComment specResolvePath
  rw [if_neg h]

/-- C6 counterexample: the claim's single-changed-file fallback ("use the
single changed file regardless of the suggestion's path") does not hold on
the code: the suggestion path `/` (which survives the provider's
normalization but normalizes to the empty string here) fails even though
exactly one file changed, while the specification cascade resolves it. -/
theorem c6_counterexample :
    resolvePathForInlineComment "/"
        (buildFileLineIndexes [{ path := "a.txt", patch := "", addedLines := [], content := "" }]) =
      none ∧
    specResolvePath "/"
        (buildFileLineIndexes [{ path := "a.txt", patch := "", addedLines := [], content := "" }]) =
      some "a.txt" := by
  decide

/-- Closed instance of the C6 theorem at a concrete non-empty suggestion
path. -/
theorem c6_witness :
    normalizePathForMatch "b.txt" ≠ "" ∧
    resolvePathForInlineComment "b.txt" [] = specResolvePath "b.txt" [] :=
  ⟨by decide, c6_path_resolution_rules.1 "b.txt" [] (by decide)⟩

/-- Specification of the best-candidate fold of `findClosestReviewLine`:
starting from a lower bound `b` of a sorted candidate list, the fold
returns a candidate (or `b`) at minimal distance from the target, and on
ties the smallest such value. -/
theorem closest_foldl_spec (t : Int) :
    ∀ (l : List Int) (b : Int), List.Sorted (· ≤ ·) l → (∀ x ∈ l, b ≤ x) →
      ∃ m, l.foldl (closestStep t) (b, distTo t b) = (m, distTo t m) ∧
        (m = b ∨ m ∈ l) ∧ distTo t m ≤ distTo t b ∧
        (∀ x ∈ l, distTo t m ≤ distTo t x) ∧
        (∀ x, (x = b ∨ x ∈ l) → distTo t x = distTo t m → m ≤ x) := by
  intro l
  induction l with
  | nil =>
    intro b _ _
    refine ⟨b, rfl, Or.inl rfl, le_refl _, by simp, ?_⟩
    rintro x (rfl | hx) _
    · exact le_refl x
    · simp at hx
  | cons y rest ih =>
    intro b hs hb
    have hyb : b ≤ y := hb y (List.mem_cons_self y rest)
    have hs' : List.Sorted (· ≤ ·) rest := hs.of_cons
    have hyrest : ∀ x ∈ rest, y ≤ x := (List.sorted_cons.mp hs).1
    rw [List.foldl_cons]
    by_cases hlt : distTo t y < distTo t b
    · have hstep : closestStep t (b, distTo t b) y = (y, distTo t y) := by
        simp [closestStep, hlt]
      rw [hstep]
      obtain ⟨m, heq, hmem, hmb, hmin, htie⟩ := ih y hs' hyrest
      refine ⟨m, heq, ?_, le_trans hmb (le_of_lt hlt), ?_, ?_⟩
      · rcases hmem with rfl | hm
        · exact Or.inr (List.mem_cons_self _ _)
        · exact Or.inr (List.mem_cons_of_mem _ hm)
      · intro x hx
        rcases List.mem_cons.mp hx with rfl | hx'
        · exact hmb
        · exact hmin x hx'
      · rintro x (rfl | hx) hdx
        · exfalso
          have h1 : distTo t m ≤ distTo t y := hmb
          omega
        · rcases List.mem_cons.mp hx with rfl | hx'
          · exact htie x (Or.inl rfl) hdx
          · exact htie x (Or.inr hx') hdx
    · have hstep : closestStep t (b, distTo t b) y = (b, distTo t b) := by
        simp [closestStep, hlt]
      rw [hstep]
      obtain ⟨m, heq, hmem, hmb, hmin, htie⟩ :=
        ih b hs' (fun x hx => le_trans hyb (hyrest x hx))
      push_neg at hlt
      refine ⟨m, heq, ?_, hmb, ?_, ?_⟩
      · rcases hmem with rfl | hm
        · exact Or.inl rfl
        · exact Or.inr (List.mem_cons_of_mem _ hm)
      · intro x hx
        rcases List.mem_cons.mp hx with rfl | hx'
        · exact le_trans hmb hlt
        · exact hmin x hx'
      · rintro x (rfl | hx) hdx
        · exact htie x (Or.inl rfl) hdx
        · rcases List.mem_cons.mp hx with rfl | hx'
          · have hbm : distTo t b = distTo t m := by omega
            exact le_trans (htie b (Or.inl rfl) hbm) hyb
          · exact htie x (Or.inr hx') hdx

/-- C5: for a positive suggested line and a sorted right-side line list (the
diff indexer always produces its right-side lines sorted and deduplicated,
and the provider's normalization guarantees positive suggestion lines),
`findClosestReviewLine` returns an exact member unchanged; on the empty
list it fails; otherwise it returns the member at minimum absolute
distance, preferring the smaller line number on ties, and fails exactly
when that minimum distance exceeds 20. -/
theorem c5_closest_line_resolution (t : Int) (rightLines : List Int)
    (hpos : 0 < t) (hsorted : List.Sorted (· ≤ ·) rightLines) :
    (t ∈ rightLines → findClosestReviewLine t rightLines = some t) ∧
    (rightLines = [] → findClosestReviewLine t rightLines = none) ∧
    (t ∉ rightLines → rightLines ≠ [] →
      ∃ m, m ∈ rightLines ∧
        (∀ x ∈ rightLines, distTo t m ≤ distTo t x) ∧
        (∀ x ∈ rightLines, distTo t x = distTo t m → m ≤ x) ∧
        findClosestReviewLine t rightLines =
          if 20 < distTo t m then none else some m) := by
  have hneg : ¬ (t ≤ 0) := not_le.mpr hpos
  refine ⟨?_, ?_, ?_⟩
  · intro hmem
    cases rightLines with
    | nil => simp at hmem
    | cons first rest =>
      unfold findClosestReviewLine
      rw [if_neg hneg]
      exact if_pos hmem
  · rintro rfl
    unfold findClosestReviewLine
    exact if_neg hneg
  · intro hmem hne
    cases rightLines with
    | nil => exact absurd rfl hne
    | cons first rest =>
      have hble : ∀ x ∈ first :: rest, first ≤ x := by
        intro x hx
        rcases List.mem_cons.mp hx with rfl | hx'
        · exact le_refl x
        · exact (List.sorted_cons.mp hsorted).1 x hx'
      obtain ⟨m, heq, hmm, _, hmin, htie⟩ :=
        closest_foldl_spec t (first :: rest) first hsorted hble
      have hm : m ∈ first :: rest := by
        rcases hmm with rfl | h
        · exact List.mem_cons_self _ _
        · exact h
      refine ⟨m, hm, hmin, fun x hx hdx => htie x (Or.inr hx) hdx, ?_⟩
      have hred : findClosestReviewLine t (first :: rest) =
          (if t ∈ first :: rest then some t
           else
             if (List.foldl (closestStep t) (first, distTo t first) (first :: rest)).2 > 20
             then none
             else some (List.foldl (closestStep t) (first, distTo t first) (first :: rest)).1) := by
        unfold findClosestReviewLine
        rw [if_neg hneg]
      rw [hred, if_neg hmem, heq]

/-- Closed instance of the C5 theorem: an exact member of the right-side
lines resolves to itself unchanged. -/
theorem c5_witness :
    findClosestReviewLine 2 [1, 2, 3] = some 2 :=
  (c5_closest_line_resolution 2 [1, 2, 3] (by decide) (by decide)).1 (by decide)

/-- Lookup on a cons cell of the association-list map model. -/
theorem jsMapGet_cons (e : String × InlineReviewComment)
    (rest : List (String × InlineReviewComment)) (k : String) :
    jsMapGet (e :: rest) k = if e.1 = k then some e.2 else jsMapGet rest k := by
  unfold jsMapGet
  by_cases h : e.1 = k
  · simp [List.find?_cons, h]
  · simp [List.find?_cons, h]

/-- Lookup after a JavaScript `Map.set`: the set key now maps to the new
value, every other key is unchanged. -/
theorem jsMapGet_jsMapSet (key k : String) (v : InlineReviewComment) :
    ∀ m, jsMapGet (jsMapSet m key v) k = if key = k then some v else jsMapGet m k := by
  intro m
  induction m with
  | nil =>
    show jsMapGet [(key, v)] k = _
    rw [jsMapGet_cons]
  | cons e rest ih =>
    show jsMapGet (if e.1 = key then (key, v) :: rest else e :: jsMapSet rest key v) k = _
    by_cases h1 : e.1 = key
    · rw [if_pos h1, jsMapGet_cons, jsMapGet_cons]
      by_cases h2 : key = k
      · rw [if_pos h2, if_pos h2]
      · rw [if_neg h2, if_neg h2, if_neg (fun he => h2 (h1 ▸ he))]
    · rw [if_neg h1, jsMapGet_cons, ih, jsMapGet_cons]
      by_cases h2 : key = k
      · rw [if_pos h2, if_pos h2, if_neg (fun he => h1 (he.trans h2.symm))]
      · rw [if_neg h2, if_neg h2]

/-- Unfolding of the resolved-map fold over the first input comment. -/
theorem buildResolvedFrom_cons (indexes : List FileLineIndex)
    (m : List (String × InlineReviewComment)) (c : InlineReviewComment)
    (rest : List InlineReviewComment) :
    buildResolvedFrom indexes m (c :: rest) =
      buildResolvedFrom indexes
        (match resolveOne indexes c with
         | none => m
         | some rc => jsMapSet m (commentKey rc.path rc.line) rc) rest := rfl

/-- Unfolding of the last-resolution fold over the first input comment. -/
theorem lastResolutionFrom_cons (indexes : List FileLineIndex)
    (acc : Option InlineReviewComment) (c : InlineReviewComment)
    (rest : List InlineReviewComment) (k : String) :
    lastResolutionFrom indexes acc (c :: rest) k =
      lastResolutionFrom indexes
        (match resolveOne indexes c with
         | none => acc
         | some rc => if commentKey rc.path rc.line = k then some rc else acc) rest k := rfl

/-- The resolved map of `createInlineReview` holds, for every key, the
resolution of the last input comment that resolved to that key. -/
theorem buildResolvedFrom_get (indexes : List FileLineIndex) :
    ∀ (comments : List InlineReviewComment) (m : List (String × InlineReviewComment))
      (k : String),
      jsMapGet (buildResolvedFrom indexes m comments) k =
        lastResolutionFrom indexes (jsMapGet m k) comments k := by
  intro comments
  induction comments with
  | nil => intro m k; rfl
  | cons c rest ih =>
    intro m k
    cases hres : resolveOne indexes c with
    | none =>
      simp only [buildResolvedFrom_cons, lastResolutionFrom_cons, hres]
      exact ih m k
    | some rc =>
      simp only [buildResolvedFrom_cons, lastResolutionFrom_cons, hres]
      rw [ih _ k, jsMapGet_jsMapSet]

/-- C7 (amended): at most 8 resolved comments are included in the posted
review, and when several input suggestions resolve to the same
`(path, resolvedLine)` key, the comment kept for that key is the resolution
of the LAST such occurrence in input order (a later duplicate overwrites
the body of an earlier one, at the earlier one's position). -/
theorem c7_dedup_keeps_last_and_caps_at_eight
    (changedFiles : List ChangedFileForReview) (comments : List InlineReviewComment) :
    (validCommentsOf changedFiles comments).length ≤ 8 ∧
    ∀ k, jsMapGet (buildResolvedFrom (buildFileLineIndexes changedFiles) [] comments) k =
      lastResolutionFrom (buildFileLineIndexes changedFiles) none comments k := by
  constructor
  · unfold validCommentsOf
    exact List.length_take_le 8 _
  · intro k
    exact buildResolvedFrom_get (buildFileLineIndexes changedFiles) comments [] k

/-- C7 counterexample: two suggestions resolving to the same
`(path, line)` key with bodies `A` then `B` leave the body `B` — the claim
that the first occurrence is kept and later duplicates are discarded is
false on the code (`Map.set` replaces the stored value). -/
theorem c7_counterexample :
    validCommentsOf
        [{ path := "f", patch := "@@ -0,0 +1 @@\n+x", addedLines := [], content := "" }]
        [{ path := "f", line := 1, body := "A" }, { path := "f", line := 1, body := "B" }] =
      [{ path := "f", line := 1, body := "B" }] := by
  decide

/-- A list whose filter under `p` is the singleton `[c]` has `c` as its
first `p`-match. -/
theorem find?_of_filter_singleton {α : Type} (p : α → Bool) :
    ∀ (l : List α) (c : α), l.filter p = [c] → l.find? p = some c := by
  intro l
  induction l with
  | nil => intro c h; simp at h
  | cons a t ih =>
    intro c h
    by_cases hpa : p a
    · rw [List.filter_cons_of_pos hpa] at h
      injection h with h1 h2
      subst h1
      exact List.find?_cons_of_pos _ hpa
    · rw [List.filter_cons_of_neg hpa] at h
      rw [List.find?_cons_of_neg _ hpa]
      exact ih c h

/-- Updating a comment id that does not occur in a list leaves the list
unchanged. -/
theorem map_update_of_not_mem (i : Nat) (nb : String) :
    ∀ (t : List IssueComment), i ∉ t.map (fun x => x.id) →
      t.map (updateCommentBody i nb) = t := by
  intro t
  induction t with
  | nil => intro _; rfl
  | cons x xs ih =>
    intro hi
    rw [List.map_cons, List.mem_cons] at hi
    push_neg at hi
    rw [List.map_cons, ih hi.2]
    congr 1
    simp [updateCommentBody, Ne.symm hi.1]

/-- Updating the body of the unique `p`-matching comment (all ids distinct)
leaves exactly the updated comment matching `p`, provided the update
preserves `p`. -/
theorem filter_map_updateCommentBody (p : IssueComment → Bool) (nb : String) :
    ∀ (l : List IssueComment) (c : IssueComment),
      (l.map (fun x => x.id)).Nodup → l.filter p = [c] →
      p { c with body := nb } = true →
      (l.map (updateCommentBody c.id nb)).filter p = [{ c with body := nb }] := by
  intro l
  induction l with
  | nil => intro c _ h _; simp at h
  | cons a t ih =>
    intro c hnd h hp
    rw [List.map_cons, List.nodup_cons] at hnd
    by_cases hpa : p a
    · rw [List.filter_cons_of_pos hpa] at h
      injection h with h1 h2
      subst h1
      rw [List.map_cons, map_update_of_not_mem _ _ t hnd.1]
      have hhead : updateCommentBody a.id nb a = { a with body := nb } := by
        simp [updateCommentBody]
      rw [hhead, List.filter_cons_of_pos hp, h2]
    · rw [List.filter_cons_of_neg hpa] at h
      have hc : c ∈ t := by
        have hcf : c ∈ t.filter p := by rw [h]; exact List.mem_singleton_self c
        exact List.mem_of_mem_filter hcf
      have hne : a.id ≠ c.id := by
        intro he
        exact hnd.1 (he ▸ List.mem_map_of_mem (fun x => x.id) hc)
      rw [List.map_cons]
      have hhead : updateCommentBody c.id nb a = a := by
        simp [updateCommentBody, hne]
      rw [hhead, List.filter_cons_of_neg hpa]
      exact ih c hnd.2 h hp

/-- Characterization of one `upsertIssueComment` call: on a comment list
with distinct ids, a fresh id, and at most one marked bot comment, the call
leaves exactly one marked bot comment, carrying the freshly written marked
body, and the resulting ids are again distinct. -/
theorem upsert_filter_spec (comments : List IssueComment) (marker b : String)
    (freshId : Nat)
    (hnd : (comments.map (fun c => c.id)).Nodup)
    (hfresh : freshId ∉ comments.map (fun c => c.id))
    (hle : (comments.filter (isMarkedBotComment marker)).length ≤ 1) :
    ∃ c, (upsertIssueComment comments marker b freshId).filter
        (isMarkedBotComment marker) = [c] ∧
      c.body = marker ++ "\n" ++ b ∧ c.isBot = true ∧
      ((upsertIssueComment comments marker b freshId).map (fun x => x.id)).Nodup := by
  unfold upsertIssueComment
  cases hfind : comments.find? (isMarkedBotComment marker) with
  | none =>
    have hfilter : comments.filter (isMarkedBotComment marker) = [] := by
      rw [List.filter_eq_nil_iff]
      exact List.find?_eq_none.mp hfind
    refine ⟨{ id := freshId, body := marker ++ "\n" ++ b, isBot := true }, ?_, rfl, rfl, ?_⟩
    · rw [List.filter_append, hfilter, List.nil_append]
      have hpnew : isMarkedBotComment marker
          { id := freshId, body := marker ++ "\n" ++ b, isBot := true } = true := by
        unfold isMarkedBotComment
        rw [jsIncludes_marker_body]
        rfl
      rw [List.filter_cons_of_pos hpnew]
      rfl
    · rw [List.map_append, List.nodup_append]
      refine ⟨hnd, by simp, ?_⟩
      intro x hx
      simp only [List.map_cons, List.map_nil, List.mem_singleton]
      intro he
      exact hfresh (he ▸ hx)
  | some e =>
    have hpe : isMarkedBotComment marker e = true := List.find?_some hfind
    have he : e ∈ comments := List.mem_of_find?_eq_some hfind
    have hmem : e ∈ comments.filter (isMarkedBotComment marker) :=
      List.mem_filter.mpr ⟨he, hpe⟩
    have hfil : comments.filter (isMarkedBotComment marker) = [e] := by
      cases hcase : comments.filter (isMarkedBotComment marker) with
      | nil => rw [hcase] at hmem; simp at hmem
      | cons x xs =>
        rw [hcase] at hle hmem
        cases xs with
        | nil => rw [List.mem_singleton.mp hmem]
        | cons y ys => simp at hle
    have hbote : e.isBot = true := by
      have hpe' := hpe
      unfold isMarkedBotComment at hpe'
      simp at hpe'
      exact hpe'.2
    have hpnew : isMarkedBotComment marker { e with body := marker ++ "\n" ++ b } = true := by
      unfold isMarkedBotComment
      rw [jsIncludes_marker_body]
      simpa using hbote
    have hupd := filter_map_updateCommentBody (isMarkedBotComment marker)
      (marker ++ "\n" ++ b) comments e hnd hfil hpnew
    refine ⟨{ e with body := marker ++ "\n" ++ b }, hupd, rfl, hbote, ?_⟩
    have hids : (comments.map (updateCommentBody e.id (marker ++ "\n" ++ b))).map
        (fun x => x.id) = comments.map (fun x => x.id) := by
      rw [List.map_map]
      apply List.map_congr_left
      intro x _
      simp only [Function.comp_apply, updateCommentBody]
      split <;> rfl
    rw [hids]
    exact hnd

/-- Shape of `upsertIssueComment` when an existing marked bot comment is
found: the update branch runs. -/
theorem upsert_of_find?_some (comments : List IssueComment) (marker b : String)
    (freshId : Nat) (e : IssueComment)
    (h : comments.find? (isMarkedBotComment marker) = some e) :
    upsertIssueComment comments marker b freshId =
      comments.map (updateCommentBody e.id (marker ++ "\n" ++ b)) := by
  unfold upsertIssueComment
  rw [h]

/-- C3 (amended): for an initial comment list with distinct ids containing
at most one bot-authored comment carrying the marker, two successive
`upsertIssueComment` calls with bodies `b1` then `b2` leave exactly one
bot-authored comment carrying the marker, and its body is the marker line
followed by `b2`. -/
theorem c3_upsert_twice_single_comment (comments : List IssueComment)
    (marker b1 b2 : String) (f1 f2 : Nat)
    (hnd : (comments.map (fun c => c.id)).Nodup)
    (hf1 : f1 ∉ comments.map (fun c => c.id))
    (hle : (comments.filter (isMarkedBotComment marker)).length ≤ 1) :
    ∃ c, (upsertIssueComment (upsertIssueComment comments marker b1 f1)
        marker b2 f2).filter (isMarkedBotComment marker) = [c] ∧
      c.body = marker ++ "\n" ++ b2 ∧ c.isBot = true := by
  obtain ⟨c1, hfil1, _, hbot1, hnd1⟩ := upsert_filter_spec comments marker b1 f1 hnd hf1 hle
  have hfind : (upsertIssueComment comments marker b1 f1).find?
      (isMarkedBotComment marker) = some c1 :=
    find?_of_filter_singleton _ _ c1 hfil1
  have hpnew : isMarkedBotComment marker { c1 with body := marker ++ "\n" ++ b2 } = true := by
    unfold isMarkedBotComment
    rw [jsIncludes_marker_body]
    simpa using hbot1
  have hupd := filter_map_updateCommentBody (isMarkedBotComment marker)
    (marker ++ "\n" ++ b2) (upsertIssueComment comments marker b1 f1) c1 hnd1 hfil1 hpnew
  refine ⟨{ c1 with body := marker ++ "\n" ++ b2 }, ?_, rfl, by simpa using hbot1⟩
  rw [upsert_of_find?_some (upsertIssueComment comments marker b1 f1) marker b2 f2 c1 hfind]
  exact hupd

/-- Closed instance of the C3 theorem: starting from no comments, two
upserts leave one bot comment with the second body. -/
theorem c3_witness :
    ∃ c, (upsertIssueComment (upsertIssueComment [] "mk" "x" 0) "mk" "y" 1).filter
        (isMarkedBotComment "mk") = [c] ∧
      c.body = "mk" ++ "\n" ++ "y" ∧ c.isBot = true :=
  c3_upsert_twice_single_comment [] "mk" "x" "y" 0 1 (by decide) (by decide) (by decide)

/-- C3 counterexample: with an initial list already holding two bot
comments carrying the marker, two upserts leave two marked bot comments,
not exactly one — the claim is false for arbitrary initial comment
lists. -/
theorem c3_counterexample :
    ((upsertIssueComment (upsertIssueComment
        [{ id := 1, body := "mk", isBot := true }, { id := 2, body := "mk", isBot := true }]
        "mk" "a" 3) "mk" "b" 4).filter (isMarkedBotComment "mk")).length = 2 := by
  decide

/-- C2 (amended): when the pull request has no bot-authored inline review
at head sha `h` yet and at least one suggestion resolves, running
`createInlineReview` twice with the same inputs leaves exactly one
bot-authored review whose commit id is `h` and whose body contains the
inline-review marker; the second run detects the existing review, posts
nothing, and reports `already_posted`. -/
theorem c2_inline_review_posted_once (reviews : List PullReview)
    (headSha summaryBody : String) (comments : List InlineReviewComment)
    (changedFiles : List ChangedFileForReview)
    (hnone : reviews.filter (isInlineReviewAt headSha) = [])
    (hsome : validCommentsOf changedFiles comments ≠ []) :
    ((createInlineReview (createInlineReview reviews headSha summaryBody comments
        changedFiles).2 headSha summaryBody comments changedFiles).2.filter
      (isInlineReviewAt headSha)).length = 1 ∧
    (createInlineReview (createInlineReview reviews headSha summaryBody comments
        changedFiles).2 headSha summaryBody comments changedFiles).1.reason =
      "already_posted" ∧
    (createInlineReview (createInlineReview reviews headSha summaryBody comments
        changedFiles).2 headSha summaryBody comments changedFiles).1.posted = false ∧
    (createInlineReview (createInlineReview reviews headSha summaryBody comments
        changedFiles).2 headSha summaryBody comments changedFiles).2 =
      (createInlineReview reviews headSha summaryBody comments changedFiles).2 := by
  have hnew : isInlineReviewAt headSha (postedInlineReview headSha summaryBody) = true := by
    unfold isInlineReviewAt postedInlineReview
    rw [jsIncludes_marker_body]
    simp
  have hanyfalse : reviews.any (isInlineReviewAt headSha) = false := by
    rw [List.any_eq_false]
    intro x hx
    have := List.filter_eq_nil_iff.mp hnone x hx
    simpa using this
  have hrun1 : createInlineReview reviews headSha summaryBody comments changedFiles =
      ({ posted := true, reason := "posted",
         validComments := validCommentsOf changedFiles comments },
       reviews ++ [postedInlineReview headSha summaryBody]) := by
    unfold createInlineReview postedInlineReview
    rw [if_neg hsome, hanyfalse]
    simp
  have hany2 : (reviews ++ [postedInlineReview headSha summaryBody]).any
      (isInlineReviewAt headSha) = true := by
    rw [List.any_eq_true]
    exact ⟨postedInlineReview headSha summaryBody,
      List.mem_append_right _ (List.mem_singleton_self _), hnew⟩
  have hrun2 : createInlineReview (reviews ++ [postedInlineReview headSha summaryBody])
      headSha summaryBody comments changedFiles =
      ({ posted := false, reason := "already_posted",
         validComments := validCommentsOf changedFiles comments },
       reviews ++ [postedInlineReview headSha summaryBody]) := by
    unfold createInlineReview
    rw [if_neg hsome, hany2]
    simp
  rw [hrun1]
  rw [hrun2]
  refine ⟨?_, rfl, rfl, rfl⟩
  rw [List.filter_append, hnone, List.nil_append, List.filter_cons_of_pos hnew]
  rfl

/-- Closed instance of the C2 theorem: one resolving suggestion, empty
initial review list. -/
theorem c2_witness :
    ((createInlineReview (createInlineReview [] "h" "s"
        [{ path := "f", line := 1, body := "A" }]
        [{ path := "f", patch := "@@ -0,0 +1 @@\n+x", addedLines := [], content := "" }]).2
        "h" "s" [{ path := "f", line := 1, body := "A" }]
        [{ path := "f", patch := "@@ -0,0 +1 @@\n+x", addedLines := [], content := "" }]).2.filter
      (isInlineReviewAt "h")).length = 1 :=
  (c2_inline_review_posted_once [] "h" "s"
    [{ path := "f", line := 1, body := "A" }]
    [{ path := "f", patch := "@@ -0,0 +1 @@\n+x", addedLines := [], content := "" }]
    (by decide) (by decide)).1

/-- C2 counterexample: the claim quantifies over any pull-request state and
any redelivered inputs, but with no resolvable suggestion the function
posts nothing on both runs (reason `no_valid_comments`, not
`already_posted`), and a state already holding two marked bot reviews at
the head sha keeps both — the review count afterwards is 2, not exactly
one. -/
theorem c2_counterexample :
    ((createInlineReview (createInlineReview
        [{ isBot := true, commitId := "abc123", body := LINE_REVIEW_MARKER },
         { isBot := true, commitId := "abc123", body := LINE_REVIEW_MARKER }]
        "abc123" "s" [] []).2 "abc123" "s" [] []).2.filter
      (isInlineReviewAt "abc123")).length = 2 ∧
    (createInlineReview (createInlineReview
        [{ isBot := true, commitId := "abc123", body := LINE_REVIEW_MARKER },
         { isBot := true, commitId := "abc123", body := LINE_REVIEW_MARKER }]
        "abc123" "s" [] []).2 "abc123" "s" [] []).1.reason = "no_valid_comments" := by
  decide

/-- Call-log effect of one raw request: exactly one record is appended. -/
theorem requestRaw_calls (st : GenState) (model prompt : String) :
    (requestRaw st model prompt).2.calls =
      st.calls ++ [{ model := model, prompt := prompt }] := by
  unfold requestRaw
  cases st.script <;> rfl

/-- Every request logged by the rate-limit-retrying wrapper is for the
given model and prompt (on top of the calls already logged). -/
theorem requestWithRateLimitRetry_calls (model prompt : String) :
    ∀ (n : Nat) (st : GenState) (c : CallRecord),
      c ∈ (requestWithRateLimitRetry model prompt n st).2.calls →
      c ∈ st.calls ∨ c = { model := model, prompt := prompt } := by
  intro n
  induction n with
  | zero =>
    intro st c hc
    rw [show requestWithRateLimitRetry model prompt 0 st =
        (if (requestRaw st model prompt).1 = ReqKind.rateLimited
         then requestRaw st model prompt
         else requestRaw st model prompt) from rfl, ite_self, requestRaw_calls] at hc
    rcases List.mem_append.mp hc with h | h
    · exact Or.inl h
    · exact Or.inr (List.mem_singleton.mp h)
  | succ n ih =>
    intro st c hc
    by_cases h : (requestRaw st model prompt).1 = ReqKind.rateLimited
    · rw [show requestWithRateLimitRetry model prompt (n + 1) st =
          (if (requestRaw st model prompt).1 = ReqKind.rateLimited
           then requestWithRateLimitRetry model prompt n (requestRaw st model prompt).2
           else requestRaw st model prompt) from rfl, if_pos h] at hc
      rcases ih _ c hc with h2 | h2
      · rw [requestRaw_calls] at h2
        rcases List.mem_append.mp h2 with h3 | h3
        · exact Or.inl h3
        · exact Or.inr (List.mem_singleton.mp h3)
      · exact Or.inr h2
    · rw [show requestWithRateLimitRetry model prompt (n + 1) st =
          (if (requestRaw st model prompt).1 = ReqKind.rateLimited
           then requestWithRateLimitRetry model prompt n (requestRaw st model prompt).2
           else requestRaw st model prompt) from rfl, if_neg h, requestRaw_calls] at hc
      rcases List.mem_append.mp hc with h3 | h3
      · exact Or.inl h3
      · exact Or.inr (List.mem_singleton.mp h3)

/-- C9: when the (rate-limit-retrying) call for the first prompt variant
against the primary model comes back rate-limited, `generateReview` stops
at once: it returns no result, its final state is exactly the state after
that first call, and every request it made was for the primary model with
the first prompt — no remaining prompt variant is tried and the fallback
model is never invoked. -/
theorem c9_rate_limited_aborts (cfg : ProviderConfig) (fullPrompt compactPrompt : String)
    (st : GenState)
    (h : (requestWithRateLimitRetry cfg.model fullPrompt cfg.rateLimitRetries st).1 =
      ReqKind.rateLimited) :
    generateReview cfg fullPrompt compactPrompt st =
      (none, (requestWithRateLimitRetry cfg.model fullPrompt cfg.rateLimitRetries st).2) ∧
    (∀ c ∈ (generateReview cfg fullPrompt compactPrompt st).2.calls,
      c ∈ st.calls ∨ c = { model := cfg.model, prompt := fullPrompt }) := by
  have hloop : ∀ rest, primaryLoop cfg (fullPrompt :: rest) false st =
      (PhaseOutcome.exhausted false true,
        (requestWithRateLimitRetry cfg.model fullPrompt cfg.rateLimitRetries st).2) := by
    intro rest
    simp only [primaryLoop, h]
  have hgen : generateReview cfg fullPrompt compactPrompt st =
      (none, (requestWithRateLimitRetry cfg.model fullPrompt cfg.rateLimitRetries st).2) := by
    unfold generateReview
    by_cases hpc : compactPrompt = fullPrompt
    · rw [if_pos hpc]
      simp [hloop]
    · rw [if_neg hpc]
      simp [hloop]
  refine ⟨hgen, ?_⟩
  rw [hgen]
  intro c hc
  exact requestWithRateLimitRetry_calls cfg.model fullPrompt cfg.rateLimitRetries st c hc

/-- Closed instance of the C9 theorem: a script answering rate-limited
makes `generateReview` return no result with only the first wrapped call's
state. -/
theorem c9_witness :
    (requestWithRateLimitRetry "gem-a" "p" 0
        { script := [ReqKind.rateLimited], calls := [] }).1 = ReqKind.rateLimited ∧
    generateReview
        { model := "gem-a", fallbackModel := "gem-b", rateLimitRetries := 0, maxRetries := 2,
          parseResponse := fun _ => none, parseAnswerCodeOnly := fun _ => none,
          repairPromptOf := fun r => r, answerCodePrompt := "ap" } "p" "q"
        { script := [ReqKind.rateLimited], calls := [] } =
      (none, (requestWithRateLimitRetry "gem-a" "p" 0
        { script := [ReqKind.rateLimited], calls := [] }).2) :=
  ⟨by decide,
   (c9_rate_limited_aborts
     { model := "gem-a", fallbackModel := "gem-b", rateLimitRetries := 0, maxRetries := 2,
       parseResponse := fun _ => none, parseAnswerCodeOnly := fun _ => none,
       repairPromptOf := fun r => r, answerCodePrompt := "ap" } "p" "q"
     { script := [ReqKind.rateLimited], calls := [] } (by decide)).1⟩

end ReviewBot

